import Mathlib

/-!
Verification of the transform codec (`src/stan/io/writer.hpp`) and the
walk-move ensemble sampler (`src/stan/mcmc/ensemble/walk_move_ensemble.hpp`).

Scalars of the C++ code are IEEE doubles.  The claims under study concern
control flow, NaN/infinity propagation, clamping and buffer discipline, not
rounding, so doubles are embedded as `FP`: an exact rational together with
the three IEEE non-finite values NaN, +∞, −∞.  Transcendental functions
(`log`, `logit`, `atanh`, `exp`) are taken as parameters on finite
arguments and extended structurally to the non-finite values following
IEEE semantics (NaN propagates; `log 0 = −∞`, `log x = NaN` for `x < 0`).
-/

namespace StanVerify

/-- An IEEE-double-like scalar: NaN, +∞, −∞, or a finite (exact) value. -/
inductive FP where
  | nan : FP
  | inf : FP
  | ninf : FP
  | val : ℚ → FP
deriving DecidableEq, Repr

namespace FP

/-- IEEE subtraction `a - b` on `FP`: NaN propagates, `∞ − ∞ = NaN`. -/
def sub : FP → FP → FP
  | nan, _ => nan
  | _, nan => nan
  | inf, inf => nan
  | inf, _ => inf
  | ninf, ninf => nan
  | ninf, _ => ninf
  | val _, inf => ninf
  | val _, ninf => inf
  | val a, val b => val (a - b)

/-- IEEE `exp` on `FP`, parameterized by the real exponential `f` on finite
arguments: `exp NaN = NaN`, `exp ∞ = ∞`, `exp (−∞) = 0`. -/
def exp (f : ℚ → ℚ) : FP → FP
  | nan => nan
  | inf => inf
  | ninf => val 0
  | val x => val (f x)

/-- IEEE comparison `a > b`: any comparison involving NaN is false. -/
def gt : FP → FP → Bool
  | nan, _ => false
  | _, nan => false
  | inf, inf => false
  | inf, _ => true
  | ninf, _ => false
  | val _, inf => false
  | val _, ninf => true
  | val a, val b => decide (b < a)

/-- Membership of an `FP` value in the closed real interval `[0, 1]`
(NaN and the infinities are not in the interval). -/
def mem01 : FP → Prop
  | val x => 0 ≤ x ∧ x ≤ 1
  | _ => False

instance : DecidablePred mem01 := fun a => by
  cases a <;> simp [mem01] <;> infer_instance

end FP

/-- IEEE `log` on a finite argument, with the finite branch abstract
(`lg` stands for the real logarithm): `log 0 = −∞`, `log x = NaN` for
`x < 0`. -/
def Flog (lg : ℚ → ℚ) (x : ℚ) : FP :=
  if 0 < x then FP.val (lg x) else if x = 0 then FP.ninf else FP.nan

/-- Modelled from the spec: `logit` comes from
`stan/maths/special_functions.hpp`, which is not under `src/`; the spec
uses it as the doubly-bounded and probability transform.  It is modelled
abstractly on finite arguments (`lgit` stands for the real logit) and
NaN-propagating on non-finite arguments per IEEE (`logit x = log (x/(1-x))`
maps NaN to NaN). -/
def Flogit (lgit : ℚ → ℚ) : FP → FP
  | FP.val x => FP.val (lgit x)
  | _ => FP.nan

/-- IEEE double division `(y - lb) / (ub - lb)` as computed by
`scalar_lub_unconstrain`: `0/0 = NaN`, `x/0 = ±∞` by the sign of `x`,
otherwise the exact quotient. -/
def lubRatio (lb ub y : ℚ) : FP :=
  if ub - lb = 0 then
    (if y - lb = 0 then FP.nan else if 0 < y - lb then FP.inf else FP.ninf)
  else FP.val ((y - lb) / (ub - lb))

/-! ## The writer (transform codec), from `src/stan/io/writer.hpp`

The writer object's state is its two output buffers.  Each `assert` in the
C++ source is embedded as a possible failure: every operation returns the
raised violation (if any) together with the writer as it stands at the
moment the operation exits — so a violation raised mid-loop exposes any
elements already pushed. -/

/-- The private buffers `data_r_`, `data_i_` of `stan::io::writer`. -/
structure Writer where
  data_r : List FP
  data_i : List Int
deriving DecidableEq, Repr

/-- `data_r_.push_back v`. -/
def Writer.push (w : Writer) (v : FP) : Writer :=
  { w with data_r := w.data_r ++ [v] }

/-- `CONSTRAINT_TOLERANCE`, fixed to `1E-8` by the constructor. -/
def CONSTRAINT_TOLERANCE : ℚ := 1 / 100000000

/-- `scalar_unconstrain(y)`: push `y` unchanged; no precondition. -/
def scalar_unconstrain (y : ℚ) (w : Writer) : Option String × Writer :=
  (none, w.push (FP.val y))

/-- `scalar_pos_unconstrain(y)`: `assert(y >= 0.0)`, then push `log(y)`. -/
def scalar_pos_unconstrain (lg : ℚ → ℚ) (y : ℚ) (w : Writer) :
    Option String × Writer :=
  if 0 ≤ y then (none, w.push (Flog lg y)) else (some "y >= 0.0", w)

/-- `scalar_lb_unconstrain(lb, y)`: `assert(y >= lb)`, push `log(y - lb)`. -/
def scalar_lb_unconstrain (lg : ℚ → ℚ) (lb y : ℚ) (w : Writer) :
    Option String × Writer :=
  if lb ≤ y then (none, w.push (Flog lg (y - lb))) else (some "y >= lb", w)

/-- `scalar_ub_unconstrain(ub, y)`: `assert(y <= ub)`, push `log(ub - y)`. -/
def scalar_ub_unconstrain (lg : ℚ → ℚ) (ub y : ℚ) (w : Writer) :
    Option String × Writer :=
  if y ≤ ub then (none, w.push (Flog lg (ub - y))) else (some "y <= ub", w)

/-- `scalar_lub_unconstrain(lb, ub, y)`: `assert(lb <= y)`,
`assert(y <= ub)`, then push `logit((y - lb) / (ub - lb))`. -/
def scalar_lub_unconstrain (lgit : ℚ → ℚ) (lb ub y : ℚ) (w : Writer) :
    Option String × Writer :=
  if lb ≤ y then
    if y ≤ ub then (none, w.push (Flogit lgit (lubRatio lb ub y)))
    else (some "y <= ub", w)
  else (some "lb <= y", w)

/-- `corr_unconstrain(y)`: `assert(-1.0 <= y)`, `assert(y <= 1.0)`, push
`atanh(y)` (`ath` abstract on finite arguments). -/
def corr_unconstrain (ath : ℚ → ℚ) (y : ℚ) (w : Writer) :
    Option String × Writer :=
  if -1 ≤ y then
    if y ≤ 1 then (none, w.push (FP.val (ath y)))
    else (some "y <= 1.0", w)
  else (some "-1.0 <= y", w)

/-- `prob_unconstrain(y)`: `assert(0.0 <= y)`, `assert(y <= 1.0)`, push
`logit(y)`. -/
def prob_unconstrain (lgit : ℚ → ℚ) (y : ℚ) (w : Writer) :
    Option String × Writer :=
  if 0 ≤ y then
    if y ≤ 1 then (none, w.push (Flogit lgit (FP.val y)))
    else (some "y <= 1.0", w)
  else (some "0.0 <= y", w)

/-- The loop of `pos_ordered_unconstrain` over indices `1 .. K-1`: at each
entry `assert(y[i] >= y[i-1])` and push `log(y[i] - y[i-1])`.  The push of
the previous entry has already happened when a later assert fires. -/
def pos_ordered_loop (lg : ℚ → ℚ) (prev : ℚ) (ys : List ℚ) (w : Writer) :
    Option String × Writer :=
  match ys with
  | [] => (none, w)
  | x :: rest =>
    if prev ≤ x then pos_ordered_loop lg x rest (w.push (Flog lg (x - prev)))
    else (some "y[i] >= y[i-1]", w)

/-- `pos_ordered_unconstrain(y)`: empty input appends nothing; otherwise
`assert(y[0] >= 0.0)`, push `log(y[0])`, then the loop over the rest. -/
def pos_ordered_unconstrain (lg : ℚ → ℚ) (y : List ℚ) (w : Writer) :
    Option String × Writer :=
  match y with
  | [] => (none, w)
  | x :: rest =>
    if 0 ≤ x then pos_ordered_loop lg x rest (w.push (Flog lg x))
    else (some "y[0] >= 0.0", w)

/-- The loop of `simplex_unconstrain` over indices `0 .. K-2`: at each
entry `assert(y[i] >= 0.0)` and push `log(y[i]) - log_y_k`. -/
def simplex_loop (lg : ℚ → ℚ) (logyk : FP) (ys : List ℚ) (w : Writer) :
    Option String × Writer :=
  match ys with
  | [] => (none, w)
  | x :: rest =>
    if 0 ≤ x then simplex_loop lg logyk rest (w.push (FP.sub (Flog lg x) logyk))
    else (some "y[i] >= 0.0", w)

/-- `simplex_unconstrain(y)`: `assert(y.size() > 0)`,
`assert(abs(1.0 - y.sum()) < CONSTRAINT_TOLERANCE)`, then
`log_y_k = log(y[K-1])` and the loop over the first `K-1` entries.  Note
the non-negativity assert runs only for indices `0 .. K-2`: the last entry
is never checked. -/
def simplex_unconstrain (lg : ℚ → ℚ) (y : List ℚ) (w : Writer) :
    Option String × Writer :=
  if y.length > 0 then
    if |1 - y.sum| < CONSTRAINT_TOLERANCE then
      simplex_loop lg (Flog lg ((y.getLast?).getD 0)) y.dropLast w
    else (some "abs(1.0 - y.sum()) < CONSTRAINT_TOLERANCE", w)
  else (some "y.size() > 0", w)

/-! ### Construction semantics of the writer (claim C1)

In the source the members are declared `std::vector<T> data_r_;` and
`std::vector<int> data_i_;` — by value, not by reference — so the
constructor initializers `data_r_(data_r), data_i_(data_i)` copy the
caller's vectors.  The environment below tracks the caller's vectors and
the writer's members as the distinct objects they are in the program. -/

/-- The caller's vectors together with the writer's member buffers. -/
structure WriterEnv where
  caller_r : List FP
  caller_i : List Int
  member_r : List FP
  member_i : List Int
deriving DecidableEq, Repr

/-- `writer(data_r, data_i)`: the by-value members are copy-initialized
from the caller's vectors. -/
def writer_construct (caller_r : List FP) (caller_i : List Int) : WriterEnv :=
  { caller_r := caller_r, caller_i := caller_i,
    member_r := caller_r, member_i := caller_i }

/-- `scalar_unconstrain(y)` on the constructed writer: `push_back` acts on
the member `data_r_`; the caller's vector is a different object and is not
touched. -/
def env_scalar_unconstrain (y : ℚ) (e : WriterEnv) : WriterEnv :=
  { e with member_r := e.member_r ++ [FP.val y] }

/-! ## The walk-move ensemble sampler,
from `src/stan/mcmc/ensemble/walk_move_ensemble.hpp`

Walker positions are rational vectors (`List ℚ`).  The random source from
the base-ensemble abstraction (not under `src/`) supplies, per the spec's
external-interface section, three primitives — Bernoulli(0.5) indicators,
standard-normal draws, and uniform draws in `[0,1)`; they are embedded as
three streams indexed by consumption counters.  The log-density oracle is a
parameter `logProb` that may return any `FP` value, NaN included.  The
unbounded companion-selection retry loop carries fuel: `none` stands for
non-termination within the fuel, and every theorem about a sweep is
conditioned on the loop having returned. -/

/-- Pointwise vector sum (`Eigen` `+=` on positions). -/
def vadd (a b : List ℚ) : List ℚ := List.zipWith (· + ·) a b

/-- Pointwise vector difference. -/
def vsub (a b : List ℚ) : List ℚ := List.zipWith (· - ·) a b

/-- Scalar times vector. -/
def smul (c : ℚ) (a : List ℚ) : List ℚ := a.map (c * ·)

/-- One pass of the `for` loop of `choose_walkers`: for
`i = 0 .. num_walkers - 2` draw a Bernoulli(0.5) indicator; on success push
`i + 2` when `i >= index`, else `i + 1`.  `bern` is the indicator stream
and `pos` the consumption counter at loop entry. -/
def choose_round (index N : ℕ) (bern : ℕ → Bool) (pos : ℕ) : List ℕ :=
  (List.range (N - 1)).filterMap fun i =>
    if bern (pos + i) then some (if index ≤ i then i + 2 else i + 1) else none

/-- The `while (walkers.size() <= 1)` retry loop of `choose_walkers`: draw
a full round of `N - 1` indicators, keep the round when more than one
walker was selected, otherwise discard it and redraw.  Returns the selected
1-based walker indices and the indicator counter after the loop; `none`
when the fuel is exhausted. -/
def choose_walkers_loop (index N : ℕ) (bern : ℕ → Bool) (pos fuel : ℕ) :
    Option (List ℕ × ℕ) :=
  match fuel with
  | 0 => none
  | fuel + 1 =>
    let w := choose_round index N bern pos
    if w.length ≤ 1 then choose_walkers_loop index N bern (pos + (N - 1)) fuel
    else some (w, pos + (N - 1))

/-- `mean_walkers(walker_index, cur_states)`: the coordinate-wise mean of
the selected walkers' current positions (each term divided by the set
size, as in the source). -/
def mean_walkers (walker_index : List ℕ) (cur_states : List (List ℚ)) :
    List ℚ :=
  (List.range (cur_states.getD 0 []).length).map fun d =>
    ((walker_index.map fun j =>
      (cur_states.getD (j - 1) []).getD d 0 / (walker_index.length : ℚ)).sum)

/-- The proposal of walker `i`: start from `cur_states[i]` and, for each
selected companion `j` in order, add `normal_rng(0,1) *
(cur_states[rand_walkers[j]-1] - mean_rand_walkers)`.  `norm` is the
standard-normal stream and `npos` its counter at entry. -/
def propose (norm : ℕ → ℚ) (npos : ℕ) (cur_states : List (List ℚ))
    (i : ℕ) (wlk : List ℕ) : List ℚ :=
  let mean := mean_walkers wlk cur_states
  (List.range wlk.length).foldl
    (fun acc j =>
      vadd acc (smul (norm (npos + j))
        (vsub (cur_states.getD (wlk.getD j 0 - 1) []) mean)))
    (cur_states.getD i [])

/-- Line 89-90 of the sampler: `if (boost::math::isnan(logp(i))) logp(i) =
std::numeric_limits<double>::infinity();`. -/
def nanToInf (a : FP) : FP := if a = FP.nan then FP.inf else a

/-- Line 95: `accept_prob(i) = accept_prob(i) > 1 ? 1 : accept_prob(i);`. -/
def clamp1 (a : FP) : FP := if FP.gt a (FP.val 1) then FP.val 1 else a

/-- The mutable environment of one call to `ensemble_transition`:
`cur_states` is passed by reference along with the three output buffers,
and the stream counters record randomness consumed so far. -/
structure SweepState where
  cur_states : List (List ℚ)
  new_states : List (List ℚ)
  logp : List FP
  accept_prob : List FP
  bpos : ℕ
  npos : ℕ
  upos : ℕ
deriving DecidableEq, Repr

/-- The body of the `for` loop of `ensemble_transition` for walker `i`:
compute `logp0`, select companions, propose, evaluate the oracle with the
NaN→+∞ substitution, clamp the Metropolis ratio at 1, then accept or
reject on one uniform draw.  `f` is the real exponential on finite
arguments; `unif` is the uniform stream. -/
def stepWalker (f : ℚ → ℚ) (logProb : List ℚ → FP) (bern : ℕ → Bool)
    (norm unif : ℕ → ℚ) (fuel i : ℕ) (st : SweepState) :
    Option SweepState :=
  let logp0 := logProb (st.cur_states.getD i [])
  match choose_walkers_loop i st.cur_states.length bern st.bpos fuel with
  | none => none
  | some (wlk, b) =>
    let prop := propose norm st.npos st.cur_states i wlk
    let lp2 := nanToInf (logProb prop)
    let ap := clamp1 (FP.exp f (FP.sub lp2 logp0))
    if FP.gt (FP.val (unif st.upos)) ap then
      some { st with
        new_states := st.new_states.set i (st.cur_states.getD i []),
        logp := st.logp.set i logp0,
        accept_prob := st.accept_prob.set i ap,
        bpos := b, npos := st.npos + wlk.length, upos := st.upos + 1 }
    else
      some { st with
        new_states := st.new_states.set i prop,
        logp := st.logp.set i lp2,
        accept_prob := st.accept_prob.set i ap,
        bpos := b, npos := st.npos + wlk.length, upos := st.upos + 1 }

/-- The `for` loop of `ensemble_transition` over a list of walker
indices. -/
def runWalkers (f : ℚ → ℚ) (logProb : List ℚ → FP) (bern : ℕ → Bool)
    (norm unif : ℕ → ℚ) (fuel : ℕ) (is : List ℕ) (st : SweepState) :
    Option SweepState :=
  match is with
  | [] => some st
  | i :: rest =>
    match stepWalker f logProb bern norm unif fuel i st with
    | none => none
    | some st1 => runWalkers f logProb bern norm unif fuel rest st1

/-- `ensemble_transition(cur_states, new_states, logp, accept_prob)`: run
the per-walker body for `i = 0 .. cur_states.size() - 1`. -/
def ensemble_transition (f : ℚ → ℚ) (logProb : List ℚ → FP)
    (bern : ℕ → Bool) (norm unif : ℕ → ℚ) (fuel : ℕ) (st : SweepState) :
    Option SweepState :=
  runWalkers f logProb bern norm unif fuel
    (List.range st.cur_states.length) st

/-! ## Helper lemmas -/

/-- `simplex_loop` succeeds on non-negative entries and appends exactly one
output per entry. -/
theorem simplex_loop_ok (lg : ℚ → ℚ) (logyk : FP) (ys : List ℚ) (w : Writer)
    (h : ∀ x ∈ ys, 0 ≤ x) :
    (simplex_loop lg logyk ys w).1 = none ∧
      (simplex_loop lg logyk ys w).2.data_r.length =
        w.data_r.length + ys.length := by
  induction ys generalizing w with
  | nil => simp [simplex_loop]
  | cons x rest ih =>
    have hx : 0 ≤ x := h x (by simp)
    have hr := ih (w.push (FP.sub (Flog lg x) logyk))
      (fun z hz => h z (by simp [hz]))
    simp only [simplex_loop, if_pos hx]
    refine ⟨hr.1, ?_⟩
    rw [hr.2]
    simp [Writer.push]
    omega

/-- `simplex_loop` only ever appends: the initial buffer is a prefix of the
buffer on exit, including on a violation. -/
theorem simplex_loop_extends (lg : ℚ → ℚ) (logyk : FP) (ys : List ℚ)
    (w : Writer) :
    ∃ t, (simplex_loop lg logyk ys w).2.data_r = w.data_r ++ t := by
  induction ys generalizing w with
  | nil => exact ⟨[], by simp [simplex_loop]⟩
  | cons x rest ih =>
    by_cases hx : 0 ≤ x
    · obtain ⟨t, ht⟩ := ih (w.push (FP.sub (Flog lg x) logyk))
      refine ⟨FP.sub (Flog lg x) logyk :: t, ?_⟩
      simp only [simplex_loop, if_pos hx]
      rw [ht]
      simp [Writer.push]
    · exact ⟨[], by simp [simplex_loop, hx]⟩

/-- `pos_ordered_loop` only ever appends: the initial buffer is a prefix of
the buffer on exit, including on a violation. -/
theorem pos_ordered_loop_extends (lg : ℚ → ℚ) (prev : ℚ) (ys : List ℚ)
    (w : Writer) :
    ∃ t, (pos_ordered_loop lg prev ys w).2.data_r = w.data_r ++ t := by
  induction ys generalizing prev w with
  | nil => exact ⟨[], by simp [pos_ordered_loop]⟩
  | cons x rest ih =>
    by_cases hx : prev ≤ x
    · obtain ⟨t, ht⟩ := ih x (w.push (Flog lg (x - prev)))
      refine ⟨Flog lg (x - prev) :: t, ?_⟩
      simp only [pos_ordered_loop, if_pos hx]
      rw [ht]
      simp [Writer.push]
    · exact ⟨[], by simp [pos_ordered_loop, hx]⟩

/-! ## Claims about the transform codec -/

/-- C1.  The claim says every unconstrain call appends to the buffers owned
by the caller that constructed the writer, the codec holding a mutable
reference to them rather than a private copy.  The source declares the
members by value (`std::vector<T> data_r_;`), so construction copies the
caller's vectors and `push_back` lands in the copy: after
`scalar_unconstrain(3.0)` on a writer built from empty caller vectors, the
member buffer holds the value while the caller's vector is still empty —
contradicting the claim and the constructor's own documentation ("writes
to the specified scalar and integer vectors"). -/
theorem writer_construction_copies :
    (env_scalar_unconstrain 3 (writer_construct [] [])).member_r
        = [FP.val 3] ∧
      (env_scalar_unconstrain 3 (writer_construct [] [])).caller_r = [] := by
  constructor <;> rfl

/-- C10.  When `lb = ub` and `y = lb`, both precondition checks
`lb ≤ y` and `y ≤ ub` of `scalar_lub_unconstrain` pass, no violation is
raised, and the value appended is `logit(0/0)`, i.e. NaN. -/
theorem scalar_lub_equal_bounds_nan (lgit : ℚ → ℚ) (lb : ℚ) (w : Writer) :
    scalar_lub_unconstrain lgit lb lb lb w = (none, w.push FP.nan) := by
  unfold scalar_lub_unconstrain lubRatio
  simp [Flogit]

/-- C4, counterexample.  The claim says a simplex summing to `1 + 2e-8`
still passes; in the code `CONSTRAINT_TOLERANCE` is `1e-8` and the check
`abs(1.0 - y.sum()) < 1e-8` is strict, so the input `[1/2, 1/2 + 2e-8]`
(non-negative entries, sum exactly `1 + 2e-8`) raises the
constraint violation. -/
theorem simplex_sum_2e8_rejected :
    (simplex_unconstrain (fun _ => 0) [1/2, 1/2 + 1/50000000]
      ⟨[], []⟩).1.isSome = true := by
  with_unfolding_all decide

/-- C4, amended.  A vector with non-negative leading entries whose sum is
strictly within `1e-8` of 1 passes and appends exactly `K-1` outputs
(e.g. a sum of `1 + 5e-9`), while any sum at distance `≥ 1e-8` from 1
(so both `1 + 2e-8` and `1 + 1e-6`) raises the constraint violation. -/
theorem simplex_tolerance_amended (lg : ℚ → ℚ) (y1 y2 : List ℚ) (w : Writer)
    (h1 : 0 < y1.length) (hs1 : |1 - y1.sum| < CONSTRAINT_TOLERANCE)
    (hnn : ∀ x ∈ y1.dropLast, 0 ≤ x)
    (h2 : 0 < y2.length) (hs2 : ¬ |1 - y2.sum| < CONSTRAINT_TOLERANCE) :
    (simplex_unconstrain lg y1 w).1 = none ∧
      (simplex_unconstrain lg y1 w).2.data_r.length =
        w.data_r.length + (y1.length - 1) ∧
      (simplex_unconstrain lg y2 w).1.isSome = true := by
  have hloop := simplex_loop_ok lg
    (Flog lg ((y1.getLast?).getD 0)) y1.dropLast w hnn
  unfold simplex_unconstrain
  rw [if_pos h1, if_pos hs1, if_pos h2, if_neg hs2]
  refine ⟨hloop.1, ?_, rfl⟩
  rw [hloop.2, List.length_dropLast]

/-- Witness for `simplex_tolerance_amended`: the sum `1 + 5e-9` passes and
appends one value for a two-entry input; the sum `1 + 1e-6` raises. -/
theorem simplex_tolerance_amended_witness :
    (simplex_unconstrain (fun _ => 0) [1/2, 1/2 + 1/200000000]
        ⟨[], []⟩).1 = none ∧
      (simplex_unconstrain (fun _ => 0) [1/2, 1/2 + 1/200000000]
          ⟨[], []⟩).2.data_r.length =
        ([] : List FP).length + (([1/2, 1/2 + 1/200000000] : List ℚ).length - 1) ∧
      (simplex_unconstrain (fun _ => 0) [1/2, 1/2 + 1/1000000]
        ⟨[], []⟩).1.isSome = true :=
  simplex_tolerance_amended (fun _ => 0) [1/2, 1/2 + 1/200000000]
    [1/2, 1/2 + 1/1000000] ⟨[], []⟩
    (by with_unfolding_all decide) (by with_unfolding_all decide)
    (by with_unfolding_all decide) (by with_unfolding_all decide)
    (by with_unfolding_all decide)

/-- C5.  The claim says `simplex_unconstrain` raises the violation whenever
any entry is negative, including the last entry `y[K-1]`.  The code's
non-negativity assert covers only indices `0 .. K-2`, so the input
`[3/2, -1/2]` — sum exactly 1, negative last entry — raises nothing and
appends `log(3/2) - log(-1/2)`, a NaN. -/
theorem simplex_negative_last_entry_unchecked :
    simplex_unconstrain (fun _ => 0) [3/2, -1/2] ⟨[], []⟩
      = (none, ⟨[FP.nan], []⟩) := by
  with_unfolding_all decide

/-- C6, counterexample.  The claim says a transform that raises the
constraint violation leaves the output buffer exactly as it was.  On
`pos_ordered_unconstrain([1, 1/2])` the first entry's output is pushed
before the ordering assert on the second entry fires, so the buffer at the
violation is not the original one. -/
theorem pos_ordered_partial_output :
    (pos_ordered_unconstrain (fun _ => 0) [1, 1/2] ⟨[], []⟩).1.isSome
        = true ∧
      (pos_ordered_unconstrain (fun _ => 0) [1, 1/2] ⟨[], []⟩).2
        ≠ (⟨[], []⟩ : Writer) := by
  with_unfolding_all decide

/-- C6, amended.  Every scalar transform checks before it pushes, so on a
violation it returns the buffer unchanged; the vector transforms
(`pos_ordered_unconstrain`, `simplex_unconstrain`) interleave checks and
pushes, so on a violation the original buffer survives only as a prefix:
outputs for the entries examined before the violating one may have been
appended. -/
theorem violation_buffer_amended (lg lgit ath : ℚ → ℚ) (lb ub y : ℚ)
    (yo yv : List ℚ) (w : Writer) :
    ((scalar_pos_unconstrain lg y w).1.isSome →
        (scalar_pos_unconstrain lg y w).2 = w) ∧
      ((scalar_lb_unconstrain lg lb y w).1.isSome →
        (scalar_lb_unconstrain lg lb y w).2 = w) ∧
      ((scalar_ub_unconstrain lg ub y w).1.isSome →
        (scalar_ub_unconstrain lg ub y w).2 = w) ∧
      ((scalar_lub_unconstrain lgit lb ub y w).1.isSome →
        (scalar_lub_unconstrain lgit lb ub y w).2 = w) ∧
      ((corr_unconstrain ath y w).1.isSome →
        (corr_unconstrain ath y w).2 = w) ∧
      ((prob_unconstrain lgit y w).1.isSome →
        (prob_unconstrain lgit y w).2 = w) ∧
      (∃ t, (pos_ordered_unconstrain lg yo w).2.data_r = w.data_r ++ t) ∧
      (∃ t, (simplex_unconstrain lg yv w).2.data_r = w.data_r ++ t) := by
  refine ⟨?_, ?_, ?_, ?_, ?_, ?_, ?_, ?_⟩
  · unfold scalar_pos_unconstrain; split <;> simp
  · unfold scalar_lb_unconstrain; split <;> simp
  · unfold scalar_ub_unconstrain; split <;> simp
  · unfold scalar_lub_unconstrain; split
    · split <;> simp
    · simp
  · unfold corr_unconstrain; split
    · split <;> simp
    · simp
  · unfold prob_unconstrain; split
    · split <;> simp
    · simp
  · match yo with
    | [] => exact ⟨[], by simp [pos_ordered_unconstrain]⟩
    | x :: rest =>
      by_cases hx : 0 ≤ x
      · obtain ⟨t, ht⟩ := pos_ordered_loop_extends lg x rest
          (w.push (Flog lg x))
        refine ⟨Flog lg x :: t, ?_⟩
        simp only [pos_ordered_unconstrain, if_pos hx]
        rw [ht]
        simp [Writer.push]
      · exact ⟨[], by simp [pos_ordered_unconstrain, if_neg hx]⟩
  · unfold simplex_unconstrain
    split
    · split
      · exact simplex_loop_extends lg _ yv.dropLast w
      · exact ⟨[], by simp⟩
    · exact ⟨[], by simp⟩

/-- Witness for `violation_buffer_amended`: each scalar transform applied
to a boundary-violating input leaves the empty buffer empty, and the
vector transforms extend the buffer. -/
theorem violation_buffer_amended_witness :
    (scalar_pos_unconstrain (fun _ => 0) (-1) ⟨[], []⟩).2
        = (⟨[], []⟩ : Writer) ∧
      (scalar_lb_unconstrain (fun _ => 0) 0 (-1) ⟨[], []⟩).2
        = (⟨[], []⟩ : Writer) ∧
      (scalar_ub_unconstrain (fun _ => 0) 0 1 ⟨[], []⟩).2
        = (⟨[], []⟩ : Writer) ∧
      (scalar_lub_unconstrain (fun _ => 0) 0 1 2 ⟨[], []⟩).2
        = (⟨[], []⟩ : Writer) ∧
      (corr_unconstrain (fun _ => 0) 2 ⟨[], []⟩).2 = (⟨[], []⟩ : Writer) ∧
      (prob_unconstrain (fun _ => 0) 2 ⟨[], []⟩).2 = (⟨[], []⟩ : Writer) ∧
      (∃ t, (pos_ordered_unconstrain (fun _ => 0) [1, 1/2]
        ⟨[], []⟩).2.data_r = ([] : List FP) ++ t) ∧
      (∃ t, (simplex_unconstrain (fun _ => 0) [1/2, -1/4, 3/4]
        ⟨[], []⟩).2.data_r = ([] : List FP) ++ t) := by
  have h := violation_buffer_amended (fun _ => 0) (fun _ => 0) (fun _ => 0)
    0 1 (-1) [1, 1/2] [1/2, -1/4, 3/4] ⟨[], []⟩
  have hb := violation_buffer_amended (fun _ => 0) (fun _ => 0) (fun _ => 0)
    0 0 (-1) [] [] ⟨[], []⟩
  have hc := violation_buffer_amended (fun _ => 0) (fun _ => 0) (fun _ => 0)
    0 0 1 [] [] ⟨[], []⟩
  have hd := violation_buffer_amended (fun _ => 0) (fun _ => 0) (fun _ => 0)
    0 1 2 [] [] ⟨[], []⟩
  exact ⟨h.1 (by with_unfolding_all decide),
    hb.2.1 (by with_unfolding_all decide),
    hc.2.2.1 (by with_unfolding_all decide),
    hd.2.2.2.1 (by with_unfolding_all decide),
    hd.2.2.2.2.1 (by with_unfolding_all decide),
    hd.2.2.2.2.2.1 (by with_unfolding_all decide),
    h.2.2.2.2.2.2.1, h.2.2.2.2.2.2.2⟩

/-! ## Claims about the walk-move ensemble sampler -/

/-- Any index produced by one selection round is 1-based, at most `N`, and
never the mover's own 1-based index `index + 1`. -/
theorem choose_round_mem (index N : ℕ) (bern : ℕ → Bool) (pos j : ℕ)
    (hj : j ∈ choose_round index N bern pos) :
    1 ≤ j ∧ j ≤ N ∧ j ≠ index + 1 := by
  simp only [choose_round, List.mem_filterMap, List.mem_range] at hj
  obtain ⟨i, hi, hval⟩ := hj
  by_cases hb : bern (pos + i)
  · rw [if_pos hb] at hval
    by_cases hidx : index ≤ i
    · rw [if_pos hidx] at hval
      injection hval with hval
      omega
    · rw [if_neg hidx] at hval
      injection hval with hval
      omega
  · rw [if_neg hb] at hval
    exact absurd hval (by simp)

/-- C3.  For every walker count `N ≥ 3` and mover index `index < N`, when
the companion-selection loop returns, it returns a list of 1-based walker
indices of size at least 2, each within `[1, N]` and none equal to the
mover's own 1-based index `index + 1`. -/
theorem choose_walkers_spec (index N : ℕ) (bern : ℕ → Bool)
    (pos fuel : ℕ) (wlk : List ℕ) (p : ℕ)
    (hN : 3 ≤ N) (hidx : index < N)
    (h : choose_walkers_loop index N bern pos fuel = some (wlk, p)) :
    2 ≤ wlk.length ∧ ∀ j ∈ wlk, 1 ≤ j ∧ j ≤ N ∧ j ≠ index + 1 := by
  induction fuel generalizing pos with
  | zero => exact absurd h (by simp [choose_walkers_loop])
  | succ f ih =>
    rw [choose_walkers_loop] at h
    by_cases hlen : (choose_round index N bern pos).length ≤ 1
    · rw [if_pos hlen] at h
      exact ih _ h
    · rw [if_neg hlen] at h
      have hw : wlk = choose_round index N bern pos := by
        cases h
        rfl
      subst hw
      exact ⟨by omega, fun j hj => choose_round_mem index N bern pos j hj⟩

/-- Witness for `choose_walkers_spec`: with `N = 3`, mover 0 and an
all-successes indicator stream, the first round selects both other
walkers, `[2, 3]`. -/
theorem choose_walkers_spec_witness :
    2 ≤ ([2, 3] : List ℕ).length ∧
      ∀ j ∈ ([2, 3] : List ℕ), 1 ≤ j ∧ j ≤ 3 ∧ j ≠ 0 + 1 :=
  choose_walkers_spec 0 3 (fun _ => true) 0 1 [2, 3] 2
    (by decide) (by decide) (by decide)

/-- The clamped Metropolis ratio the loop body stores in `accept_prob(i)`:
`min(1, exp(logp_new − logp0))` with the NaN→+∞ substitution applied to
`logp_new`, computed from the pre-sweep positions and the normal-draw
counter. -/
def acceptProbOf (f : ℚ → ℚ) (logProb : List ℚ → FP) (norm : ℕ → ℚ)
    (i : ℕ) (st : SweepState) (wlk : List ℕ) : FP :=
  clamp1 (FP.exp f
    (FP.sub (nanToInf (logProb (propose norm st.npos st.cur_states i wlk)))
      (logProb (st.cur_states.getD i []))))

/-- When the companion selection returns, the loop body returns. -/
theorem stepWalker_total (f : ℚ → ℚ) (logProb : List ℚ → FP)
    (bern : ℕ → Bool) (norm unif : ℕ → ℚ) (fuel i : ℕ) (st : SweepState)
    (wlk : List ℕ) (b : ℕ)
    (hcw : choose_walkers_loop i st.cur_states.length bern st.bpos fuel
      = some (wlk, b)) :
    ∃ st', stepWalker f logProb bern norm unif fuel i st = some st' := by
  unfold stepWalker
  rw [hcw]
  dsimp only
  split <;> exact ⟨_, rfl⟩

/-- Characterization of a successful loop-body run: the companion selection
returned some `(wlk, b)`, the accept probability stored at slot `i` is the
clamped ratio, `cur_states` and the other counters evolve as in the code,
and the new state and log-density at slot `i` are the rejected pair or the
accepted pair according to the single uniform draw. -/
theorem stepWalker_char (f : ℚ → ℚ) (logProb : List ℚ → FP)
    (bern : ℕ → Bool) (norm unif : ℕ → ℚ) (fuel i : ℕ) (st st' : SweepState)
    (h : stepWalker f logProb bern norm unif fuel i st = some st') :
    ∃ wlk b,
      choose_walkers_loop i st.cur_states.length bern st.bpos fuel
          = some (wlk, b) ∧
        st'.cur_states = st.cur_states ∧
        st'.accept_prob
          = st.accept_prob.set i (acceptProbOf f logProb norm i st wlk) ∧
        st'.bpos = b ∧ st'.npos = st.npos + wlk.length ∧
        st'.upos = st.upos + 1 ∧
        ((FP.gt (FP.val (unif st.upos))
              (acceptProbOf f logProb norm i st wlk) = true ∧
            st'.new_states = st.new_states.set i (st.cur_states.getD i []) ∧
            st'.logp = st.logp.set i (logProb (st.cur_states.getD i []))) ∨
          (FP.gt (FP.val (unif st.upos))
              (acceptProbOf f logProb norm i st wlk) = false ∧
            st'.new_states
              = st.new_states.set i (propose norm st.npos st.cur_states i wlk) ∧
            st'.logp = st.logp.set i
              (nanToInf (logProb (propose norm st.npos st.cur_states i wlk))))) := by
  unfold stepWalker at h
  rcases hc : choose_walkers_loop i st.cur_states.length bern st.bpos fuel with
    _ | ⟨wlk, b⟩
  · rw [hc] at h
    exact absurd h (by simp)
  · rw [hc] at h
    dsimp only at h
    refine ⟨wlk, b, rfl, ?_⟩
    by_cases hg : FP.gt (FP.val (unif st.upos))
        (clamp1 (FP.exp f
          (FP.sub (nanToInf (logProb (propose norm st.npos st.cur_states i wlk)))
            (logProb (st.cur_states.getD i [])))))
    · rw [if_pos hg] at h
      injection h with h
      subst h
      exact ⟨rfl, rfl, rfl, rfl, rfl, Or.inl ⟨hg, rfl, rfl⟩⟩
    · rw [if_neg hg] at h
      injection h with h
      subst h
      exact ⟨rfl, rfl, rfl, rfl, rfl,
        Or.inr ⟨by simpa [acceptProbOf] using hg, rfl, rfl⟩⟩

/-- `nanToInf` of NaN is +∞. -/
theorem nanToInf_nan : nanToInf FP.nan = FP.inf := rfl

/-- `nanToInf` never returns NaN. -/
theorem nanToInf_ne_nan (a : FP) : nanToInf a ≠ FP.nan := by
  cases a <;> simp [nanToInf]

/-- The clamp at 1 of +∞ is 1. -/
theorem clampOne_inf : clamp1 FP.inf = FP.val 1 := rfl

/-- IEEE `u > 1` is false for a uniform draw `u < 1`. -/
theorem gt_val_one_false (u : ℚ) (hu : u < 1) :
    FP.gt (FP.val u) (FP.val 1) = false := by
  simp only [FP.gt, decide_eq_false_iff_not]
  exact not_lt.mpr hu.le

/-- The stored accept probability depends on the state only through
`cur_states` and the normal-draw counter. -/
theorem acceptProbOf_congr (f : ℚ → ℚ) (logProb : List ℚ → FP)
    (norm : ℕ → ℚ) (i : ℕ) (t st : SweepState) (wlk : List ℕ)
    (hcur : t.cur_states = st.cur_states) (hnp : t.npos = st.npos) :
    acceptProbOf f logProb norm i t wlk = acceptProbOf f logProb norm i st wlk := by
  unfold acceptProbOf
  rw [hcur, hnp]

/-- Writing the same value at the same slot of two same-length lists gives
the same element there. -/
theorem set_getElem?_congr {α : Type} (l1 l2 : List α) (i : ℕ) (v : α)
    (hlen : l1.length = l2.length) :
    (l1.set i v)[i]? = (l2.set i v)[i]? := by
  by_cases hi : i < l2.length
  · rw [List.getElem?_set_eq (by omega), List.getElem?_set_eq hi]
  · rw [List.set_eq_of_length_le (by omega),
      List.set_eq_of_length_le (by omega),
      List.getElem?_eq_none_iff.mpr (by omega),
      List.getElem?_eq_none_iff.mpr (by omega)]

/-- A sweep never writes `cur_states`: the loop over any index list
preserves it. -/
theorem runWalkers_cur (f : ℚ → ℚ) (logProb : List ℚ → FP)
    (bern : ℕ → Bool) (norm unif : ℕ → ℚ) (fuel : ℕ) (is : List ℕ)
    (st stF : SweepState)
    (h : runWalkers f logProb bern norm unif fuel is st = some stF) :
    stF.cur_states = st.cur_states := by
  induction is generalizing st with
  | nil =>
    unfold runWalkers at h
    injection h with h
    rw [h]
  | cons i rest ih =>
    unfold runWalkers at h
    rcases hs : stepWalker f logProb bern norm unif fuel i st with _ | st1
    · rw [hs] at h
      exact absurd h (by simp)
    · rw [hs] at h
      dsimp only at h
      obtain ⟨_, _, _, hcur, _⟩ :=
        stepWalker_char f logProb bern norm unif fuel i st st1 hs
      rw [ih st1 h, hcur]

/-- C2.  If the oracle returns NaN at walker `i`'s proposed position while
`logp0` is finite, the stored `logp(i)` is +∞, `accept_prob(i)` is 1, and
the proposal is accepted regardless of the uniform draw (any draw in
`[0, 1)`): `new_states[i]` keeps the proposed position. -/
theorem nan_logp_always_accepted (f : ℚ → ℚ) (logProb : List ℚ → FP)
    (bern : ℕ → Bool) (norm unif : ℕ → ℚ) (fuel i : ℕ) (st : SweepState)
    (wlk : List ℕ) (b : ℕ) (q : ℚ)
    (hcw : choose_walkers_loop i st.cur_states.length bern st.bpos fuel
      = some (wlk, b))
    (hlp0 : logProb (st.cur_states.getD i []) = FP.val q)
    (hnan : logProb (propose norm st.npos st.cur_states i wlk) = FP.nan)
    (hu : unif st.upos < 1) :
    ∃ st', stepWalker f logProb bern norm unif fuel i st = some st' ∧
      st'.logp = st.logp.set i FP.inf ∧
      st'.accept_prob = st.accept_prob.set i (FP.val 1) ∧
      st'.new_states
        = st.new_states.set i (propose norm st.npos st.cur_states i wlk) := by
  obtain ⟨st', hstep⟩ :=
    stepWalker_total f logProb bern norm unif fuel i st wlk b hcw
  obtain ⟨wlk', b', hc', hcur, hap, hb, hn, hup, hbranch⟩ :=
    stepWalker_char f logProb bern norm unif fuel i st st' hstep
  rw [hcw] at hc'
  injection hc' with hc'
  cases hc'
  have hapv : acceptProbOf f logProb norm i st wlk = FP.val 1 := by
    unfold acceptProbOf
    rw [hnan, hlp0]
    rfl
  rw [hapv] at hbranch hap
  rcases hbranch with ⟨hg, _, _⟩ | ⟨_, hns, hlp⟩
  · rw [gt_val_one_false _ hu] at hg
    cases hg
  · refine ⟨st', hstep, ?_, hap, hns⟩
    rw [hlp, hnan]
    rfl

/-- Witness for `nan_logp_always_accepted`: three walkers at positions
`[0], [1], [2]`, mover 0 selects both others, a normal draw of 2 then 0
proposes `[-1]`, where the oracle returns NaN; the proposal is accepted
with `accept_prob = 1` and `logp = +∞`. -/
theorem nan_logp_always_accepted_witness :
    ∃ st', stepWalker (fun _ => 1)
        (fun v => if v = [-1] then FP.nan else FP.val 0)
        (fun _ => true) (fun k => if k = 0 then 2 else 0) (fun _ => 1/2) 1 0
        ⟨[[0], [1], [2]], [[0], [1], [2]],
          [FP.val 0, FP.val 0, FP.val 0], [FP.val 0, FP.val 0, FP.val 0],
          0, 0, 0⟩ = some st' ∧
      st'.logp = [FP.val 0, FP.val 0, FP.val 0].set 0 FP.inf ∧
      st'.accept_prob = [FP.val 0, FP.val 0, FP.val 0].set 0 (FP.val 1) ∧
      st'.new_states = ([[0], [1], [2]] : List (List ℚ)).set 0
        (propose (fun k => if k = 0 then 2 else 0) 0
          ([[0], [1], [2]] : List (List ℚ)) 0 [2, 3]) :=
  nan_logp_always_accepted (fun _ => 1)
    (fun v => if v = [-1] then FP.nan else FP.val 0)
    (fun _ => true) (fun k => if k = 0 then 2 else 0) (fun _ => 1/2) 1 0
    ⟨[[0], [1], [2]], [[0], [1], [2]],
      [FP.val 0, FP.val 0, FP.val 0], [FP.val 0, FP.val 0, FP.val 0],
      0, 0, 0⟩ [2, 3] 2 0
    (by decide) (by with_unfolding_all decide)
    (by with_unfolding_all decide) (by with_unfolding_all decide)

/-- C7, counterexample.  The claim says `accept_prob` always lies in
`[0, 1]`.  When the oracle returns NaN at a walker's *current* position
(which the spec's oracle contract allows), `logp0 = NaN` is never
substituted, `exp(logp_new − NaN) = NaN`, the clamp `NaN > 1` is false, and
the stored accept probability is NaN — not in `[0, 1]`.  A full sweep over
three walkers with a constant-NaN oracle stores NaN in every slot. -/
theorem accept_prob_range_counterexample :
    ensemble_transition (fun _ => 1) (fun _ => FP.nan) (fun _ => true)
        (fun _ => 0) (fun _ => 1/2) 1
        ⟨[[0], [1], [2]], [[0], [1], [2]],
          [FP.val 0, FP.val 0, FP.val 0], [FP.val 0, FP.val 0, FP.val 0],
          0, 0, 0⟩
      = some ⟨[[0], [1], [2]], [[0], [1], [2]],
          [FP.inf, FP.inf, FP.inf], [FP.nan, FP.nan, FP.nan], 6, 6, 3⟩ ∧
      ¬ FP.mem01 FP.nan := by
  constructor
  · with_unfolding_all decide
  · simp [FP.mem01]

/-- C7, amended.  Whenever `logp0` — the oracle's value at the walker's
current position — is finite, the stored accept probability equals the
clamped ratio `min(1, exp(logp_new − logp0))` (with the NaN→+∞
substitution applied to `logp_new`) and lies in `[0, 1]`; when additionally
`logp_new` equals `logp0` exactly, the accept probability is 1 and the
proposal is accepted regardless of the uniform draw.  `f` embeds the real
exponential, so `f 0 = 1` and `f` is positive. -/
theorem accept_prob_amended (f : ℚ → ℚ) (logProb : List ℚ → FP)
    (bern : ℕ → Bool) (norm unif : ℕ → ℚ) (fuel i : ℕ) (st : SweepState)
    (wlk : List ℕ) (b : ℕ) (q : ℚ)
    (hf1 : f 0 = 1) (hfpos : ∀ x, 0 < f x)
    (hcw : choose_walkers_loop i st.cur_states.length bern st.bpos fuel
      = some (wlk, b))
    (hlp0 : logProb (st.cur_states.getD i []) = FP.val q)
    (hu : unif st.upos < 1)
    (hiacc : i < st.accept_prob.length) (hinew : i < st.new_states.length) :
    ∃ st', stepWalker f logProb bern norm unif fuel i st = some st' ∧
      st'.accept_prob[i]? = some (acceptProbOf f logProb norm i st wlk) ∧
      FP.mem01 (acceptProbOf f logProb norm i st wlk) ∧
      (nanToInf (logProb (propose norm st.npos st.cur_states i wlk))
          = FP.val q →
        acceptProbOf f logProb norm i st wlk = FP.val 1 ∧
        st'.new_states[i]?
          = some (propose norm st.npos st.cur_states i wlk)) := by
  obtain ⟨st', hstep⟩ :=
    stepWalker_total f logProb bern norm unif fuel i st wlk b hcw
  obtain ⟨wlk', b', hc', hcur, hap, hb, hn, hup, hbranch⟩ :=
    stepWalker_char f logProb bern norm unif fuel i st st' hstep
  rw [hcw] at hc'
  injection hc' with hc'
  cases hc'
  refine ⟨st', hstep, ?_, ?_, ?_⟩
  · rw [hap, List.getElem?_set_eq hiacc]
  · unfold acceptProbOf
    rw [hlp0]
    rcases h2 : nanToInf (logProb (propose norm st.npos st.cur_states i wlk))
      with _ | _ | _ | r
    · exact absurd h2 (nanToInf_ne_nan _)
    · show FP.mem01 (clamp1 (FP.exp f (FP.sub FP.inf (FP.val q))))
      show FP.mem01 (FP.val 1)
      exact ⟨by norm_num, le_refl 1⟩
    · show FP.mem01 (clamp1 (FP.exp f (FP.sub FP.ninf (FP.val q))))
      show FP.mem01 (FP.val 0)
      exact ⟨le_refl 0, by norm_num⟩
    · show FP.mem01 (clamp1 (FP.exp f (FP.sub (FP.val r) (FP.val q))))
      show FP.mem01 (clamp1 (FP.val (f (r - q))))
      unfold clamp1
      by_cases hgt : FP.gt (FP.val (f (r - q))) (FP.val 1)
      · rw [if_pos hgt]
        exact ⟨by norm_num, le_refl 1⟩
      · rw [if_neg hgt]
        simp only [FP.gt, decide_eq_true_eq] at hgt
        exact ⟨(hfpos _).le, not_lt.mp hgt⟩
  · intro h2
    have hapv : acceptProbOf f logProb norm i st wlk = FP.val 1 := by
      unfold acceptProbOf
      rw [h2, hlp0]
      show clamp1 (FP.exp f (FP.val (q - q))) = FP.val 1
      rw [sub_self]
      show clamp1 (FP.val (f 0)) = FP.val 1
      rw [hf1]
      rfl
    refine ⟨hapv, ?_⟩
    rw [hapv] at hbranch
    rcases hbranch with ⟨hg, _, _⟩ | ⟨_, hns, _⟩
    · rw [gt_val_one_false _ hu] at hg
      cases hg
    · rw [hns, List.getElem?_set_eq hinew]

/-- Witness for `accept_prob_amended`: a constant-zero oracle and the
constant-one embedding of `exp` give `logp_new = logp0 = 0`, accept
probability 1, and acceptance of the (zero-length) proposed move. -/
theorem accept_prob_amended_witness :
    ∃ st', stepWalker (fun _ => 1) (fun _ => FP.val 0) (fun _ => true)
        (fun _ => 0) (fun _ => 1/2) 1 0
        ⟨[[0], [1], [2]], [[0], [1], [2]],
          [FP.val 0, FP.val 0, FP.val 0], [FP.val 0, FP.val 0, FP.val 0],
          0, 0, 0⟩ = some st' ∧
      st'.accept_prob[0]? = some (acceptProbOf (fun _ => 1)
        (fun _ => FP.val 0) (fun _ => 0) 0
        ⟨[[0], [1], [2]], [[0], [1], [2]],
          [FP.val 0, FP.val 0, FP.val 0], [FP.val 0, FP.val 0, FP.val 0],
          0, 0, 0⟩ [2, 3]) ∧
      FP.mem01 (acceptProbOf (fun _ => 1) (fun _ => FP.val 0) (fun _ => 0) 0
        ⟨[[0], [1], [2]], [[0], [1], [2]],
          [FP.val 0, FP.val 0, FP.val 0], [FP.val 0, FP.val 0, FP.val 0],
          0, 0, 0⟩ [2, 3]) ∧
      (nanToInf ((fun _ => FP.val 0) (propose (fun _ => 0) 0
            ([[0], [1], [2]] : List (List ℚ)) 0 [2, 3])) = FP.val 0 →
        acceptProbOf (fun _ => 1) (fun _ => FP.val 0) (fun _ => 0) 0
          ⟨[[0], [1], [2]], [[0], [1], [2]],
            [FP.val 0, FP.val 0, FP.val 0], [FP.val 0, FP.val 0, FP.val 0],
            0, 0, 0⟩ [2, 3] = FP.val 1 ∧
        st'.new_states[0]? = some (propose (fun _ => 0) 0
          ([[0], [1], [2]] : List (List ℚ)) 0 [2, 3])) :=
  accept_prob_amended (fun _ => 1) (fun _ => FP.val 0) (fun _ => true)
    (fun _ => 0) (fun _ => 1/2) 1 0
    ⟨[[0], [1], [2]], [[0], [1], [2]],
      [FP.val 0, FP.val 0, FP.val 0], [FP.val 0, FP.val 0, FP.val 0],
      0, 0, 0⟩ [2, 3] 2 0
    rfl (fun _ => by norm_num) (by decide) rfl
    (by with_unfolding_all decide) (by decide) (by decide)

/-- C8.  Each walker's accept/reject step consumes exactly one uniform
draw (the uniform counter advances by one); if the draw exceeds
`accept_prob(i)` the move is rejected — `new_states[i]` is set back to
`cur_states[i]` and `logp(i)` to `logp0` — and otherwise the proposed
position and its (NaN-substituted) log-density stand. -/
theorem accept_reject_step (f : ℚ → ℚ) (logProb : List ℚ → FP)
    (bern : ℕ → Bool) (norm unif : ℕ → ℚ) (fuel i : ℕ) (st : SweepState)
    (wlk : List ℕ) (b : ℕ)
    (hcw : choose_walkers_loop i st.cur_states.length bern st.bpos fuel
      = some (wlk, b)) :
    ∃ st', stepWalker f logProb bern norm unif fuel i st = some st' ∧
      st'.upos = st.upos + 1 ∧
      st'.accept_prob
        = st.accept_prob.set i (acceptProbOf f logProb norm i st wlk) ∧
      (FP.gt (FP.val (unif st.upos))
          (acceptProbOf f logProb norm i st wlk) = true →
        st'.new_states = st.new_states.set i (st.cur_states.getD i []) ∧
        st'.logp = st.logp.set i (logProb (st.cur_states.getD i []))) ∧
      (FP.gt (FP.val (unif st.upos))
          (acceptProbOf f logProb norm i st wlk) = false →
        st'.new_states
          = st.new_states.set i (propose norm st.npos st.cur_states i wlk) ∧
        st'.logp = st.logp.set i
          (nanToInf (logProb (propose norm st.npos st.cur_states i wlk)))) := by
  obtain ⟨st', hstep⟩ :=
    stepWalker_total f logProb bern norm unif fuel i st wlk b hcw
  obtain ⟨wlk', b', hc', hcur, hap, hb, hn, hup, hbranch⟩ :=
    stepWalker_char f logProb bern norm unif fuel i st st' hstep
  rw [hcw] at hc'
  injection hc' with hc'
  cases hc'
  refine ⟨st', hstep, hup, hap, ?_, ?_⟩
  · intro hg
    rcases hbranch with ⟨_, hns, hlp⟩ | ⟨hg', _, _⟩
    · exact ⟨hns, hlp⟩
    · rw [hg] at hg'
      cases hg'
  · intro hg
    rcases hbranch with ⟨hg', _, _⟩ | ⟨_, hns, hlp⟩
    · rw [hg] at hg'
      cases hg'
    · exact ⟨hns, hlp⟩

/-- Witness for `accept_reject_step`: a rejection.  With a constant-zero
oracle, an `exp` embedding returning `1/2` and a uniform draw of `3/4`,
the draw exceeds the accept probability `1/2`, so walker 0's slot is set
back to its current position `[0]` and its `logp` to `logp0 = 0`; the
uniform counter advances from 0 to 1. -/
theorem accept_reject_step_witness :
    ∃ st', stepWalker (fun _ => 1/2) (fun _ => FP.val 0) (fun _ => true)
        (fun _ => 0) (fun _ => 3/4) 1 0
        ⟨[[0], [1], [2]], [[0], [1], [2]],
          [FP.val 0, FP.val 0, FP.val 0], [FP.val 0, FP.val 0, FP.val 0],
          0, 0, 0⟩ = some st' ∧
      st'.upos = 0 + 1 ∧
      st'.accept_prob = [FP.val 0, FP.val 0, FP.val 0].set 0
        (acceptProbOf (fun _ => 1/2) (fun _ => FP.val 0) (fun _ => 0) 0
          ⟨[[0], [1], [2]], [[0], [1], [2]],
            [FP.val 0, FP.val 0, FP.val 0], [FP.val 0, FP.val 0, FP.val 0],
            0, 0, 0⟩ [2, 3]) ∧
      (FP.gt (FP.val ((fun _ => (3:ℚ)/4) 0))
          (acceptProbOf (fun _ => 1/2) (fun _ => FP.val 0) (fun _ => 0) 0
            ⟨[[0], [1], [2]], [[0], [1], [2]],
              [FP.val 0, FP.val 0, FP.val 0], [FP.val 0, FP.val 0, FP.val 0],
              0, 0, 0⟩ [2, 3]) = true →
        st'.new_states = ([[0], [1], [2]] : List (List ℚ)).set 0
          (([[0], [1], [2]] : List (List ℚ)).getD 0 []) ∧
        st'.logp = [FP.val 0, FP.val 0, FP.val 0].set 0
          ((fun _ => FP.val 0) (([[0], [1], [2]] : List (List ℚ)).getD 0 []))) ∧
      (FP.gt (FP.val ((fun _ => (3:ℚ)/4) 0))
          (acceptProbOf (fun _ => 1/2) (fun _ => FP.val 0) (fun _ => 0) 0
            ⟨[[0], [1], [2]], [[0], [1], [2]],
              [FP.val 0, FP.val 0, FP.val 0], [FP.val 0, FP.val 0, FP.val 0],
              0, 0, 0⟩ [2, 3]) = false →
        st'.new_states = ([[0], [1], [2]] : List (List ℚ)).set 0
          (propose (fun _ => 0) 0 ([[0], [1], [2]] : List (List ℚ)) 0 [2, 3]) ∧
        st'.logp = [FP.val 0, FP.val 0, FP.val 0].set 0
          (nanToInf ((fun _ => FP.val 0) (propose (fun _ => 0) 0
            ([[0], [1], [2]] : List (List ℚ)) 0 [2, 3])))) :=
  accept_reject_step (fun _ => 1/2) (fun _ => FP.val 0) (fun _ => true)
    (fun _ => 0) (fun _ => 3/4) 1 0
    ⟨[[0], [1], [2]], [[0], [1], [2]],
      [FP.val 0, FP.val 0, FP.val 0], [FP.val 0, FP.val 0, FP.val 0],
      0, 0, 0⟩ [2, 3] 2 (by decide)

/-- C9.  Within one `ensemble_transition` call, walker `i`'s step
preserves `cur_states`, leaves every slot `j ≠ i` of the three output
buffers unchanged, and the values it writes at slot `i` depend only on the
pre-sweep `cur_states` and the randomness counters — two states agreeing
on those produce identical slot-`i` writes; and the full sweep never
writes `cur_states`. -/
theorem walker_step_frame (f : ℚ → ℚ) (logProb : List ℚ → FP)
    (bern : ℕ → Bool) (norm unif : ℕ → ℚ) (fuel i : ℕ)
    (st st' stF : SweepState)
    (h : stepWalker f logProb bern norm unif fuel i st = some st')
    (hF : ensemble_transition f logProb bern norm unif fuel st = some stF) :
    st'.cur_states = st.cur_states ∧
      (∀ j, j ≠ i → st'.new_states[j]? = st.new_states[j]? ∧
        st'.logp[j]? = st.logp[j]? ∧
        st'.accept_prob[j]? = st.accept_prob[j]?) ∧
      (∀ t t', t.cur_states = st.cur_states → t.bpos = st.bpos →
        t.npos = st.npos → t.upos = st.upos →
        t.new_states.length = st.new_states.length →
        t.logp.length = st.logp.length →
        t.accept_prob.length = st.accept_prob.length →
        stepWalker f logProb bern norm unif fuel i t = some t' →
        t'.new_states[i]? = st'.new_states[i]? ∧
          t'.logp[i]? = st'.logp[i]? ∧
          t'.accept_prob[i]? = st'.accept_prob[i]?) ∧
      stF.cur_states = st.cur_states := by
  obtain ⟨wlk, b, hc, hcur, hap, hb, hn, hup, hbranch⟩ :=
    stepWalker_char f logProb bern norm unif fuel i st st' h
  refine ⟨hcur, ?_, ?_, ?_⟩
  · intro j hj
    refine ⟨?_, ?_, ?_⟩
    · rcases hbranch with ⟨_, hns, _⟩ | ⟨_, hns, _⟩ <;>
        rw [hns, List.getElem?_set_ne (fun he => hj he.symm)]
    · rcases hbranch with ⟨_, _, hlp⟩ | ⟨_, _, hlp⟩ <;>
        rw [hlp, List.getElem?_set_ne (fun he => hj he.symm)]
    · rw [hap, List.getElem?_set_ne (fun he => hj he.symm)]
  · intro t t' htc htb htn htu hl1 hl2 hl3 ht
    obtain ⟨wlk2, b2, hc2, htcur, htap, htb2, htn2, htu2, htbranch⟩ :=
      stepWalker_char f logProb bern norm unif fuel i t t' ht
    rw [htc, htb] at hc2
    rw [hc] at hc2
    injection hc2 with hc2
    cases hc2
    have hapeq := acceptProbOf_congr f logProb norm i t st wlk htc htn
    have hpropeq : propose norm t.npos t.cur_states i wlk
        = propose norm st.npos st.cur_states i wlk := by
      rw [htc, htn]
    rw [hapeq] at htap htbranch
    rw [htu] at htbranch
    refine ⟨?_, ?_, ?_⟩
    · rcases htbranch with ⟨hg2, hns2, _⟩ | ⟨hg2, hns2, _⟩ <;>
        rcases hbranch with ⟨hg, hns, _⟩ | ⟨hg, hns, _⟩
      · rw [hns2, hns, htc]
        exact set_getElem?_congr _ _ _ _ hl1
      · rw [hg] at hg2
        cases hg2
      · rw [hg] at hg2
        cases hg2
      · rw [hns2, hns, hpropeq]
        exact set_getElem?_congr _ _ _ _ hl1
    · rcases htbranch with ⟨hg2, _, hlp2⟩ | ⟨hg2, _, hlp2⟩ <;>
        rcases hbranch with ⟨hg, _, hlp⟩ | ⟨hg, _, hlp⟩
      · rw [hlp2, hlp, htc]
        exact set_getElem?_congr _ _ _ _ hl2
      · rw [hg] at hg2
        cases hg2
      · rw [hg] at hg2
        cases hg2
      · rw [hlp2, hlp, hpropeq]
        exact set_getElem?_congr _ _ _ _ hl2
    · rw [htap, hap]
      exact set_getElem?_congr _ _ _ _ hl3
  · exact runWalkers_cur f logProb bern norm unif fuel _ st stF hF

/-- Witness for `walker_step_frame`: on a concrete three-walker ensemble
with a constant-zero oracle, walker 0's step and the full sweep both leave
`cur_states` as it was, and walker 0's step leaves slot 1 of the three
output buffers untouched. -/
theorem walker_step_frame_witness :
    (⟨[[0], [1], [2]], [[0], [1], [2]], [FP.val 0, FP.val 0, FP.val 0],
        [FP.val 1, FP.val 0, FP.val 0], 2, 2, 1⟩ : SweepState).cur_states
      = (⟨[[0], [1], [2]], [[0], [1], [2]], [FP.val 0, FP.val 0, FP.val 0],
        [FP.val 0, FP.val 0, FP.val 0], 0, 0, 0⟩ : SweepState).cur_states ∧
    ((⟨[[0], [1], [2]], [[0], [1], [2]], [FP.val 0, FP.val 0, FP.val 0],
        [FP.val 1, FP.val 0, FP.val 0], 2, 2, 1⟩ : SweepState).new_states[1]?
      = (⟨[[0], [1], [2]], [[0], [1], [2]], [FP.val 0, FP.val 0, FP.val 0],
        [FP.val 0, FP.val 0, FP.val 0], 0, 0, 0⟩ : SweepState).new_states[1]? ∧
     (⟨[[0], [1], [2]], [[0], [1], [2]], [FP.val 0, FP.val 0, FP.val 0],
        [FP.val 1, FP.val 0, FP.val 0], 2, 2, 1⟩ : SweepState).logp[1]?
      = (⟨[[0], [1], [2]], [[0], [1], [2]], [FP.val 0, FP.val 0, FP.val 0],
        [FP.val 0, FP.val 0, FP.val 0], 0, 0, 0⟩ : SweepState).logp[1]? ∧
     (⟨[[0], [1], [2]], [[0], [1], [2]], [FP.val 0, FP.val 0, FP.val 0],
        [FP.val 1, FP.val 0, FP.val 0], 2, 2, 1⟩ : SweepState).accept_prob[1]?
      = (⟨[[0], [1], [2]], [[0], [1], [2]], [FP.val 0, FP.val 0, FP.val 0],
        [FP.val 0, FP.val 0, FP.val 0], 0, 0, 0⟩ : SweepState).accept_prob[1]?) ∧
    (⟨[[0], [1], [2]], [[0], [1], [2]], [FP.val 0, FP.val 0, FP.val 0],
        [FP.val 1, FP.val 1, FP.val 1], 6, 6, 3⟩ : SweepState).cur_states
      = (⟨[[0], [1], [2]], [[0], [1], [2]], [FP.val 0, FP.val 0, FP.val 0],
        [FP.val 0, FP.val 0, FP.val 0], 0, 0, 0⟩ : SweepState).cur_states := by
  have hmain := walker_step_frame (fun _ => 1) (fun _ => FP.val 0)
    (fun _ => true) (fun _ => 0) (fun _ => 1/2) 1 0
    ⟨[[0], [1], [2]], [[0], [1], [2]], [FP.val 0, FP.val 0, FP.val 0],
      [FP.val 0, FP.val 0, FP.val 0], 0, 0, 0⟩
    ⟨[[0], [1], [2]], [[0], [1], [2]], [FP.val 0, FP.val 0, FP.val 0],
      [FP.val 1, FP.val 0, FP.val 0], 2, 2, 1⟩
    ⟨[[0], [1], [2]], [[0], [1], [2]], [FP.val 0, FP.val 0, FP.val 0],
      [FP.val 1, FP.val 1, FP.val 1], 6, 6, 3⟩
    (by with_unfolding_all decide) (by with_unfolding_all decide)
  exact ⟨hmain.1, hmain.2.1 1 (by decide), hmain.2.2.2⟩

end StanVerify
